import Mathlib

/-!
Verification of the track-shape generation core (generate_shapes.py).

The source is shallowly embedded: geographic coordinates (Python floats)
become exact rationals, the float `haversine` becomes the same formula over
the reals, Python dicts (insertion ordered) become association lists, the
`while` loop of the breadth-first search becomes a fuel-indexed recursion
(the Python loop terminates because every enqueue marks a node visited; all
theorems below are quantified over the fuel), and fallible dictionary
lookups return `Option`.
-/

/-- A geographic coordinate pair (lat, lon), degrees as exact rationals. -/
abbrev Coord := ℚ × ℚ

/-- An OSM way identifier (`seg['id']`). -/
abbrev SegId := ℤ

/-- One step of a path: (segment id, reversed-direction flag), as produced
by `find_path_bfs`; `false` is the forward direction. -/
abbrev PathStep := SegId × Bool

/-- A directed edge out of a graph node: (neighbor node, segment id,
reversed flag), as stored in the adjacency lists of `build_track_graph`. -/
abbrev GEdge (ν : Type) := ν × SegId × Bool

/-- The track graph: `graph` in the source, a Python dict from coordinate
key to edge list, modelled as an insertion-ordered association list. -/
abbrev TrackGraph (ν : Type) := List (ν × List (GEdge ν))

/-- The geometry store: `segment_geoms`, a dict from segment id to the
segment's ordered point list. -/
abbrev GeomStore := List (SegId × List Coord)

/-- A raw OSM way element as consumed by `load_osm_data`: id, tag
dictionary, and an optional geometry (the `'geometry' in elem` check). -/
structure RawElem where
  id : SegId
  tags : List (String × String)
  geometry : Option (List Coord)
deriving DecidableEq

/-- A filtered segment as consumed by `build_track_graph` (its geometry is
present after filtering). -/
structure Seg where
  id : SegId
  geometry : List Coord
deriving DecidableEq

/-- Python `tags.get(key, default)`. -/
def tagGet (tags : List (String × String)) (key dflt : String) : String :=
  match tags.find? (fun p => p.1 == key) with
  | some p => p.2
  | none => dflt

/-- `excluded_usage = {'military', 'industrial'}`. -/
def excluded_usage : List String := ["military", "industrial"]

/-- `excluded_service = {'yard', 'siding', 'spur', 'crossover'}`. -/
def excluded_service : List String := ["yard", "siding", "spur", "crossover"]

/-- The per-element inclusion test of `load_osm_data`: usage not excluded,
service not excluded, geometry key present and non-empty. -/
def includeElem (e : RawElem) : Bool :=
  (!decide (tagGet e.tags "usage" "unknown" ∈ excluded_usage)) &&
  (!decide (tagGet e.tags "service" "" ∈ excluded_service)) &&
  (match e.geometry with
   | some g => !g.isEmpty
   | none => false)

/-- The filtering step of `load_osm_data` (the file I/O and the diagnostic
tag counts are external effects, dropped). -/
def load_osm_data (elements : List RawElem) : List RawElem :=
  elements.filter includeElem

/-- Python `round(x, 4)` on a rational: round to 4 decimal places.
(Python's float `round` is round-half-to-even; `round` on ℚ is
round-half-up. They agree except at exact midpoints of the 4th decimal,
which no claim depends on.) -/
def roundTo4 (x : ℚ) : ℚ := (round (x * 10000) : ℤ) / 10000

/-- `coord_key(lat, lon, precision=4)` from `build_track_graph`. -/
def coord_key (p : Coord) : Coord := (roundTo4 p.1, roundTo4 p.2)

/-- `graph[n].append(e)` on the insertion-ordered dict: append `e` to the
edge list at key `n`, creating the key at the end if absent (defaultdict). -/
def graphAppend {ν : Type} [DecidableEq ν] :
    TrackGraph ν → ν → GEdge ν → TrackGraph ν
  | [], n, e => [(n, [e])]
  | (k, es) :: rest, n, e =>
    if k = n then (k, es ++ [e]) :: rest else (k, es) :: graphAppend rest n e

/-- `graph.get(n, [])`: edge list at key `n`, `[]` if absent. -/
def graphGet {ν : Type} [DecidableEq ν] : TrackGraph ν → ν → List (GEdge ν)
  | [], _ => []
  | (k, es) :: rest, n => if k = n then es else graphGet rest n

/-- `graph.keys()` in insertion order. -/
def graphKeys {ν : Type} (g : TrackGraph ν) : List ν := g.map Prod.fst

/-- All edges of the graph, over all keys. -/
def allEdges {ν : Type} (g : TrackGraph ν) : List (GEdge ν) :=
  (g.map Prod.snd).foldr (· ++ ·) []

/-- Number of edges in the graph carrying the given segment id. -/
def countEdgesWithId {ν : Type} (g : TrackGraph ν) (sid : SegId) : ℕ :=
  (allEdges g).countP (fun e => decide (e.2.1 = sid))

/-- `segment_geoms[k] = v` on the dict: overwrite in place or append. -/
def storeSet : GeomStore → SegId → List Coord → GeomStore
  | [], k, v => [(k, v)]
  | (k1, v1) :: rest, k, v =>
    if k1 = k then (k, v) :: rest else (k1, v1) :: storeSet rest k v

/-- `segment_geoms[k]` as an `Option` (Python raises KeyError if absent). -/
def storeFind : GeomStore → SegId → Option (List Coord)
  | [], _ => none
  | (k1, v1) :: rest, k => if k1 = k then some v1 else storeFind rest k

/-- One iteration of the segment loop of `build_track_graph`: skip
segments with fewer than 2 points, otherwise record the geometry and
insert the two directed edges (start→end forward, end→start reverse). -/
def buildStep (acc : TrackGraph Coord × GeomStore) (seg : Seg) :
    TrackGraph Coord × GeomStore :=
  if seg.geometry.length < 2 then acc
  else
    let s := coord_key (seg.geometry.headD (0, 0))
    let t := coord_key (seg.geometry.getLastD (0, 0))
    let store := storeSet acc.2 seg.id seg.geometry
    let g1 := graphAppend acc.1 s (t, seg.id, false)
    let g2 := graphAppend g1 t (s, seg.id, true)
    (g2, store)

/-- `build_track_graph(segments)`: fold the segment loop from empty dicts. -/
def build_track_graph (segs : List Seg) : TrackGraph Coord × GeomStore :=
  segs.foldl buildStep ([], [])

/-- One iteration of the scan in `find_nearest_node`: keep the new node
exactly when its distance is strictly below the best so far (`best_dist`
starts at `float('inf')`, modelled by `⊤` of `WithTop`). The distance
computation (`haversine` to the fixed target in the source) is abstracted
into the function `d`. -/
def nearestStep {ν α : Type} [LinearOrder α] (d : ν → α)
    (acc : Option ν × WithTop α) (n : ν) : Option ν × WithTop α :=
  if (d n : WithTop α) < acc.2 then (some n, (d n : WithTop α)) else acc

/-- The exhaustive scan over `graph.keys()` in `find_nearest_node`. -/
def scanNearest {ν α : Type} [LinearOrder α] (d : ν → α) (nodes : List ν) :
    Option ν × WithTop α :=
  nodes.foldl (nearestStep d) (none, ⊤)

/-- `find_nearest_node(graph, lat, lon, max_dist_km)`: scan every node key
(in iteration order `nodes`), then fail (first component `none`) when the
best distance exceeds the radius; the second component is `best_dist`,
returned in both cases. -/
def find_nearest_node {ν α : Type} [LinearOrder α] (d : ν → α)
    (nodes : List ν) (maxDist : α) : Option ν × WithTop α :=
  let r := scanNearest d nodes
  if (maxDist : WithTop α) < r.2 then (none, r.2) else r

/-- The inner edge loop of the BFS in `find_path_bfs`: for each outgoing
edge, skip visited neighbors, return (`Except.error`) the extended path as
soon as the end node is reached, otherwise mark the neighbor visited and
enqueue it. -/
def expandEdges {ν : Type} [DecidableEq ν] (endNode : ν) (path : List PathStep) :
    List (GEdge ν) → Finset ν → List (ν × List PathStep) →
    Except (List PathStep) (Finset ν × List (ν × List PathStep))
  | [], visited, acc => .ok (visited, acc)
  | (nxt, sid, rev) :: es, visited, acc =>
    if nxt ∈ visited then expandEdges endNode path es visited acc
    else if nxt = endNode then .error (path ++ [(sid, rev)])
    else expandEdges endNode path es (insert nxt visited)
      (acc ++ [(nxt, path ++ [(sid, rev)])])

/-- The `while queue` loop of `find_path_bfs`: pop the front, prune paths
longer than `max_segments`, otherwise expand the current node's edges.
The fuel argument generalizes the terminating Python loop. -/
def bfsLoop {ν : Type} [DecidableEq ν] (g : TrackGraph ν) (endNode : ν)
    (maxSegments : ℕ) :
    ℕ → List (ν × List PathStep) → Finset ν → Option (List PathStep)
  | 0, _, _ => none
  | _ + 1, [], _ => none
  | fuel + 1, (cur, path) :: rest, visited =>
    if maxSegments < path.length then bfsLoop g endNode maxSegments fuel rest visited
    else
      match expandEdges endNode path (graphGet g cur) visited [] with
      | .error p => some p
      | .ok (v2, items) => bfsLoop g endNode maxSegments fuel (rest ++ items) v2

/-- `find_path_bfs(graph, segment_geoms, start, end, max_segments)`:
empty path when start equals end, else BFS from the singleton queue and
visited set. `some p` models returning a path list, `none` models both
`return None` and fuel exhaustion (source default: `max_segments=500`). -/
def find_path_bfs {ν : Type} [DecidableEq ν] (g : TrackGraph ν)
    (startNode endNode : ν) (maxSegments fuel : ℕ) : Option (List PathStep) :=
  if startNode = endNode then some []
  else bfsLoop g endNode maxSegments fuel [(startNode, [])] {startNode}

/-- A walk in the track graph: a sequence of (segment id, direction)
steps whose successive edges exist in the adjacency lists, connecting the
first node to the last. -/
inductive Walk {ν : Type} [DecidableEq ν] (g : TrackGraph ν) : ν → ν → List PathStep → Prop
  | nil (n : ν) : Walk g n n []
  | cons {a b c : ν} {sid : SegId} {rev : Bool} {p : List PathStep} :
      (b, sid, rev) ∈ graphGet g a → Walk g b c p → Walk g a c ((sid, rev) :: p)

/-- `points = points[::-1] if reversed_dir else points`. -/
def orientGeom (geom : List Coord) (rev : Bool) : List Coord :=
  if rev then geom.reverse else geom

/-- The segment loop of `path_to_coordinates`, carrying the `coords`
accumulator: look up the geometry (KeyError modelled as `none`), orient
it, drop the first point when it duplicates the last emitted point, and
extend. -/
def ptcLoop (store : GeomStore) : List PathStep → List Coord → Option (List Coord)
  | [], coords => some coords
  | (sid, rev) :: rest, coords =>
    match storeFind store sid with
    | none => none
    | some geom =>
      let points := orientGeom geom rev
      let points2 :=
        if coords ≠ [] ∧ points ≠ [] ∧ coords.getLast? = points.head?
        then points.tail else points
      ptcLoop store rest (coords ++ points2)

/-- `path_to_coordinates(path, segment_geoms)`. -/
def path_to_coordinates (path : List PathStep) (store : GeomStore) :
    Option (List Coord) :=
  ptcLoop store path []

/-- Junction-duplicate counter for a path, threading the last emitted
point: a duplicate is counted exactly when the last emitted point equals
the first point of the next segment's (possibly reversed) point list. -/
def dupCountFrom (store : GeomStore) : List PathStep → Option Coord → ℕ
  | [], _ => 0
  | (sid, rev) :: rest, lastP =>
    let points := orientGeom ((storeFind store sid).getD []) rev
    match points.head? with
    | none => dupCountFrom store rest lastP
    | some h =>
      (if lastP = some h then 1 else 0) + dupCountFrom store rest points.getLast?

/-- Junction duplicates over a whole path (nothing emitted yet). -/
def dupCount (store : GeomStore) (path : List PathStep) : ℕ :=
  dupCountFrom store path none

/-- Sum of the per-segment point counts of a path. -/
def sumPoints (store : GeomStore) (path : List PathStep) : ℕ :=
  (path.map (fun st => ((storeFind store st.1).getD []).length)).sum

/-- The per-route tail of the `generate_shapes` loop, after the two
terminal stations have been resolved to graph nodes: run the BFS, skip the
route (`if not path: continue`, which catches both `None` and the empty
list) producing no shape, otherwise assemble the coordinates. -/
def routeShapeFromNodes {ν : Type} [DecidableEq ν] (g : TrackGraph ν)
    (store : GeomStore) (sn en : ν) (fuel : ℕ) : Option (List Coord) :=
  match find_path_bfs g sn en 500 fuel with
  | none => none
  | some [] => none
  | some p => path_to_coordinates p store

/-- `radians(x)` as used by `haversine`. -/
noncomputable def radians (x : ℝ) : ℝ := x * Real.pi / 180

/-- `haversine(lat1, lon1, lat2, lon2)` from the source, over the reals:
Earth radius 6371 km, `R * 2 * asin(sqrt(a))`. -/
noncomputable def haversine (lat1 lon1 lat2 lon2 : ℝ) : ℝ :=
  let dlat := radians (lat2 - lat1)
  let dlon := radians (lon2 - lon1)
  let a := Real.sin (dlat / 2) ^ 2 +
    Real.cos (radians lat1) * Real.cos (radians lat2) * Real.sin (dlon / 2) ^ 2
  6371 * (2 * Real.arcsin (Real.sqrt a))

/-- The `dist_traveled` accumulation of the shapes.txt writer: emit the
running total for the current point, then add the haversine distance (in
meters) to the next point. -/
noncomputable def cumDistLoop (prev : Coord) (acc : ℝ) : List Coord → List ℝ
  | [] => [acc]
  | c :: cs =>
    acc :: cumDistLoop c
      (acc + haversine (prev.1 : ℝ) (prev.2 : ℝ) (c.1 : ℝ) (c.2 : ℝ) * 1000) cs

/-- The `shape_dist_traveled` column emitted for one shape's coordinate
list: 0 for the first point, then cumulative haversine meters. -/
noncomputable def shapeDistColumn : List Coord → List ℝ
  | [] => []
  | c :: cs => cumDistLoop c 0 cs

/-- State-threaded variant of the `find_nearest_node` scan: the shared
(graph, store) state is passed through every iteration, so that leaving it
unchanged is a provable property rather than a modelling assumption. -/
def nearestLoopS {ν α : Type} [LinearOrder α] (d : ν → α) :
    List ν → (Option ν × WithTop α) → TrackGraph ν × GeomStore →
    (Option ν × WithTop α) × (TrackGraph ν × GeomStore)
  | [], acc, st => (acc, st)
  | n :: ns, acc, st => nearestLoopS d ns (nearestStep d acc n) st

/-- State-threaded variant of the BFS loop (reads the graph from the
shared state at every expansion). -/
def bfsLoopS {ν : Type} [DecidableEq ν] (endNode : ν) (maxSegments : ℕ) :
    ℕ → List (ν × List PathStep) → Finset ν → TrackGraph ν × GeomStore →
    Option (List PathStep) × (TrackGraph ν × GeomStore)
  | 0, _, _, st => (none, st)
  | _ + 1, [], _, st => (none, st)
  | fuel + 1, (cur, path) :: rest, visited, st =>
    if maxSegments < path.length then bfsLoopS endNode maxSegments fuel rest visited st
    else
      match expandEdges endNode path (graphGet st.1 cur) visited [] with
      | .error p => (some p, st)
      | .ok (v2, items) => bfsLoopS endNode maxSegments fuel (rest ++ items) v2 st

/-- State-threaded variant of the `path_to_coordinates` loop (reads the
store from the shared state at every lookup). -/
def ptcLoopS : List PathStep → List Coord → TrackGraph Coord × GeomStore →
    Option (List Coord) × (TrackGraph Coord × GeomStore)
  | [], coords, st => (some coords, st)
  | (sid, rev) :: rest, coords, st =>
    match storeFind st.2 sid with
    | none => (none, st)
    | some geom =>
      let points := orientGeom geom rev
      let points2 :=
        if coords ≠ [] ∧ points ≠ [] ∧ coords.getLast? = points.head?
        then points.tail else points
      ptcLoopS rest (coords ++ points2) st

/-! ### Basic lemmas about the association-list dictionaries -/

theorem graphAppend_cons {ν : Type} [DecidableEq ν] (k : ν) (es : List (GEdge ν))
    (tl : TrackGraph ν) (n : ν) (e : GEdge ν) :
    graphAppend ((k, es) :: tl) n e =
      if k = n then (k, es ++ [e]) :: tl else (k, es) :: graphAppend tl n e := rfl

theorem graphGet_cons {ν : Type} [DecidableEq ν] (k : ν) (es : List (GEdge ν))
    (tl : TrackGraph ν) (n : ν) :
    graphGet ((k, es) :: tl) n = if k = n then es else graphGet tl n := rfl

theorem allEdges_cons {ν : Type} (k : ν) (es : List (GEdge ν)) (tl : TrackGraph ν) :
    allEdges ((k, es) :: tl) = es ++ allEdges tl := rfl

theorem storeSet_cons (k1 : SegId) (v1 : List Coord) (tl : GeomStore)
    (k : SegId) (v : List Coord) :
    storeSet ((k1, v1) :: tl) k v =
      if k1 = k then (k, v) :: tl else (k1, v1) :: storeSet tl k v := rfl

theorem storeFind_cons (k1 : SegId) (v1 : List Coord) (tl : GeomStore) (k : SegId) :
    storeFind ((k1, v1) :: tl) k = if k1 = k then some v1 else storeFind tl k := rfl

theorem graphGet_append_same {ν : Type} [DecidableEq ν] (g : TrackGraph ν)
    (n : ν) (e : GEdge ν) : graphGet (graphAppend g n e) n = graphGet g n ++ [e] := by
  induction g with
  | nil => simp [graphAppend, graphGet]
  | cons hd tl ih =>
    obtain ⟨k, es⟩ := hd
    rw [graphAppend_cons]
    by_cases h : k = n
    · rw [if_pos h, graphGet_cons, graphGet_cons, if_pos h, if_pos h]
    · rw [if_neg h, graphGet_cons, graphGet_cons, if_neg h, if_neg h, ih]

theorem graphGet_append_other {ν : Type} [DecidableEq ν] (g : TrackGraph ν)
    (n m : ν) (e : GEdge ν) (h : m ≠ n) :
    graphGet (graphAppend g n e) m = graphGet g m := by
  induction g with
  | nil =>
    show graphGet [(n, [e])] m = graphGet [] m
    rw [graphGet_cons, if_neg (fun hh => h hh.symm)]
  | cons hd tl ih =>
    obtain ⟨k, es⟩ := hd
    rw [graphAppend_cons]
    by_cases hk : k = n
    · subst hk
      rw [if_pos rfl, graphGet_cons, graphGet_cons, if_neg (fun hh => h hh.symm),
        if_neg (fun hh => h hh.symm)]
    · rw [if_neg hk, graphGet_cons, graphGet_cons]
      by_cases hm : k = m
      · rw [if_pos hm, if_pos hm]
      · rw [if_neg hm, if_neg hm, ih]

theorem mem_graphGet_append {ν : Type} [DecidableEq ν] {g : TrackGraph ν}
    {m : ν} {x : GEdge ν} (n : ν) (e : GEdge ν) (h : x ∈ graphGet g m) :
    x ∈ graphGet (graphAppend g n e) m := by
  by_cases hm : m = n
  · subst hm; rw [graphGet_append_same]; exact List.mem_append_left _ h
  · rwa [graphGet_append_other _ _ _ _ hm]

theorem mem_allEdges_append {ν : Type} [DecidableEq ν] {g : TrackGraph ν}
    {n : ν} {e x : GEdge ν} (h : x ∈ allEdges (graphAppend g n e)) :
    x = e ∨ x ∈ allEdges g := by
  induction g with
  | nil =>
    rw [show graphAppend ([] : TrackGraph ν) n e = [(n, [e])] from rfl] at h
    simpa [allEdges_cons, allEdges] using h
  | cons hd tl ih =>
    obtain ⟨k, es⟩ := hd
    rw [graphAppend_cons] at h
    by_cases hk : k = n
    · rw [if_pos hk, allEdges_cons] at h
      rw [allEdges_cons]
      rcases List.mem_append.mp h with h1 | h1
      · rcases List.mem_append.mp h1 with h2 | h2
        · exact Or.inr (List.mem_append_left _ h2)
        · exact Or.inl (List.mem_singleton.mp h2)
      · exact Or.inr (List.mem_append_right _ h1)
    · rw [if_neg hk, allEdges_cons] at h
      rw [allEdges_cons]
      rcases List.mem_append.mp h with h1 | h1
      · exact Or.inr (List.mem_append_left _ h1)
      · rcases ih h1 with h2 | h2
        · exact Or.inl h2
        · exact Or.inr (List.mem_append_right _ h2)

theorem mem_graphGet_allEdges {ν : Type} [DecidableEq ν] {g : TrackGraph ν}
    {n : ν} {x : GEdge ν} (h : x ∈ graphGet g n) : x ∈ allEdges g := by
  induction g with
  | nil => simp [graphGet] at h
  | cons hd tl ih =>
    obtain ⟨k, es⟩ := hd
    rw [graphGet_cons] at h
    rw [allEdges_cons]
    by_cases hk : k = n
    · rw [if_pos hk] at h; exact List.mem_append_left _ h
    · rw [if_neg hk] at h; exact List.mem_append_right _ (ih h)

theorem storeFind_set_same (st : GeomStore) (k : SegId) (v : List Coord) :
    storeFind (storeSet st k v) k = some v := by
  induction st with
  | nil => simp [storeSet, storeFind]
  | cons hd tl ih =>
    obtain ⟨k1, v1⟩ := hd
    rw [storeSet_cons]
    by_cases h : k1 = k
    · rw [if_pos h, storeFind_cons, if_pos rfl]
    · rw [if_neg h, storeFind_cons, if_neg h, ih]

theorem storeFind_set_other (st : GeomStore) (k k2 : SegId) (v : List Coord)
    (h : k2 ≠ k) : storeFind (storeSet st k v) k2 = storeFind st k2 := by
  induction st with
  | nil =>
    show storeFind [(k, v)] k2 = storeFind [] k2
    rw [storeFind_cons, if_neg (fun hh => h hh.symm)]
  | cons hd tl ih =>
    obtain ⟨k1, v1⟩ := hd
    rw [storeSet_cons]
    by_cases hk : k1 = k
    · subst hk
      rw [if_pos rfl, storeFind_cons, storeFind_cons, if_neg (fun hh => h hh.symm),
        if_neg (fun hh => h hh.symm)]
    · rw [if_neg hk, storeFind_cons, storeFind_cons]
      by_cases hm : k1 = k2
      · rw [if_pos hm, if_pos hm]
      · rw [if_neg hm, if_neg hm, ih]

theorem storeFind_set_isSome (st : GeomStore) (k k2 : SegId) (v : List Coord)
    (h : (storeFind st k2).isSome) : (storeFind (storeSet st k v) k2).isSome := by
  by_cases hk : k2 = k
  · subst hk; rw [storeFind_set_same]; rfl
  · rwa [storeFind_set_other _ _ _ _ hk]

/-! ### C7: the segment filter -/

theorem includeElem_iff (e : RawElem) :
    includeElem e = true ↔
      tagGet e.tags "usage" "unknown" ∉ excluded_usage ∧
      tagGet e.tags "service" "" ∉ excluded_service ∧
      ∃ g, e.geometry = some g ∧ g ≠ [] := by
  obtain ⟨eid, etags, egeo⟩ := e
  cases egeo with
  | none => simp [includeElem]
  | some g =>
    simp only [includeElem, Bool.and_eq_true, Bool.not_eq_true',
      decide_eq_false_iff_not]
    constructor
    · rintro ⟨⟨hu, hs⟩, hg⟩
      refine ⟨hu, hs, g, rfl, ?_⟩
      intro hnil
      subst hnil
      simp at hg
    · rintro ⟨hu, hs, g2, hg2, hne⟩
      obtain rfl : g = g2 := by injection hg2
      refine ⟨⟨hu, hs⟩, ?_⟩
      simpa [List.isEmpty_iff] using hne

/-- C7: an element passes `load_osm_data`'s filtering step if and only if
its usage tag (default "unknown") is not in the excluded usage set, its
service tag (default "") is not in the excluded service set, and its
geometry is present and non-empty; the filter is a total function and
unmatched or absent tags simply default to the non-excluded values
"unknown" and "", so they pass through as included. -/
theorem load_osm_data_mem_iff (elements : List RawElem) (e : RawElem) :
    e ∈ load_osm_data elements ↔
      e ∈ elements ∧
      tagGet e.tags "usage" "unknown" ∉ excluded_usage ∧
      tagGet e.tags "service" "" ∉ excluded_service ∧
      ∃ g, e.geometry = some g ∧ g ≠ [] := by
  rw [load_osm_data, List.mem_filter, includeElem_iff]

/-! ### C3: degenerate start == end routes -/

/-- C3: when a route's two terminal stations resolve to the same graph
node, `find_path_bfs` returns an empty path (`some []`, not a failure),
and the route loop's `if not path` guard then produces no shape record for
it — exactly the output produced when the search genuinely fails
(`none`), so nothing distinguishes the two cases downstream. -/
theorem same_node_route_is_silent {ν : Type} [DecidableEq ν] (g : TrackGraph ν)
    (store : GeomStore) (sn : ν) (fuel : ℕ) :
    find_path_bfs g sn sn 500 fuel = some [] ∧
    routeShapeFromNodes g store sn sn fuel = none ∧
    ∀ a b : ν, find_path_bfs g a b 500 fuel = none →
      routeShapeFromNodes g store a b fuel = none := by
  refine ⟨?_, ?_, ?_⟩
  · rw [find_path_bfs, if_pos rfl]
  · rw [routeShapeFromNodes, find_path_bfs, if_pos rfl]
  · intro a b h
    rw [routeShapeFromNodes, h]

/-! ### C9: the search and assembly components do not mutate shared state -/

theorem nearestLoopS_eq {ν α : Type} [LinearOrder α] (d : ν → α) (ns : List ν)
    (acc : Option ν × WithTop α) (st : TrackGraph ν × GeomStore) :
    nearestLoopS d ns acc st = (ns.foldl (nearestStep d) acc, st) := by
  induction ns generalizing acc with
  | nil => rfl
  | cons n ns ih => rw [nearestLoopS, List.foldl_cons, ih]

theorem bfsLoopS_eq {ν : Type} [DecidableEq ν] (endNode : ν) (maxSegments : ℕ)
    (fuel : ℕ) (Q : List (ν × List PathStep)) (V : Finset ν)
    (st : TrackGraph ν × GeomStore) :
    bfsLoopS endNode maxSegments fuel Q V st =
      (bfsLoop st.1 endNode maxSegments fuel Q V, st) := by
  induction fuel generalizing Q V with
  | zero => rfl
  | succ fuel ih =>
    cases Q with
    | nil => rfl
    | cons front rest =>
      obtain ⟨cur, path⟩ := front
      rw [bfsLoopS, bfsLoop]
      by_cases h : maxSegments < path.length
      · rw [if_pos h, if_pos h, ih]
      · rw [if_neg h, if_neg h]
        cases hexp : expandEdges endNode path (graphGet st.1 cur) V [] with
        | error p => rfl
        | ok out => obtain ⟨v2, items⟩ := out; exact ih _ _

theorem ptcLoopS_eq (path : List PathStep) (coords : List Coord)
    (st : TrackGraph Coord × GeomStore) :
    ptcLoopS path coords st = (ptcLoop st.2 path coords, st) := by
  induction path generalizing coords with
  | nil => rfl
  | cons step rest ih =>
    obtain ⟨sid, rev⟩ := step
    rw [ptcLoopS, ptcLoop]
    cases hf : storeFind st.2 sid with
    | none => rfl
    | some geom => exact ih _

/-- C9: the nearest-node scan, the BFS path search, and the path-to-
coordinates assembly all leave the shared (graph, geometry store) state
exactly as they found it: each state-threaded loop returns the untouched
input state alongside the same result as its pure counterpart, for all
inputs. -/
theorem components_read_only :
    (∀ (ν α : Type) (_ : LinearOrder α) (d : ν → α) (ns : List ν)
       (acc : Option ν × WithTop α) (st : TrackGraph ν × GeomStore),
       nearestLoopS d ns acc st = (ns.foldl (nearestStep d) acc, st)) ∧
    (∀ (ν : Type) (_ : DecidableEq ν) (endNode : ν) (maxSegments fuel : ℕ)
       (Q : List (ν × List PathStep)) (V : Finset ν)
       (st : TrackGraph ν × GeomStore),
       bfsLoopS endNode maxSegments fuel Q V st =
         (bfsLoop st.1 endNode maxSegments fuel Q V, st)) ∧
    (∀ (path : List PathStep) (coords : List Coord)
       (st : TrackGraph Coord × GeomStore),
       ptcLoopS path coords st = (ptcLoop st.2 path coords, st)) :=
  ⟨fun _ _ _ => nearestLoopS_eq, fun _ _ => bfsLoopS_eq, ptcLoopS_eq⟩

/-! ### The nearest-node scan -/

/-- Invariant of the `find_nearest_node` scan: starting from a current
best `b`, the fold returns the first strict improvement chain's last
winner: a global minimizer of the remaining nodes that is either `b`
itself or the earliest remaining node strictly better than everything
before it. -/
theorem nearestFold_spec {ν α : Type} [LinearOrder α] (d : ν → α) :
    ∀ (rest : List ν) (b : ν),
      ∃ r, rest.foldl (nearestStep d) (some b, (d b : WithTop α)) =
          (some r, (d r : WithTop α)) ∧
        d r ≤ d b ∧ (∀ m ∈ rest, d r ≤ d m) ∧
        (r = b ∨ (d r < d b ∧
          ∃ pre suf, rest = pre ++ r :: suf ∧ ∀ m ∈ pre, d r < d m)) := by
  intro rest
  induction rest with
  | nil =>
    intro b
    exact ⟨b, rfl, le_refl _, by simp, Or.inl rfl⟩
  | cons x rest ih =>
    intro b
    rw [List.foldl_cons]
    by_cases hx : d x < d b
    · have hstep : nearestStep d (some b, (d b : WithTop α)) x =
          (some x, (d x : WithTop α)) := by
        rw [nearestStep, if_pos (show (d x : WithTop α) < _ from WithTop.coe_lt_coe.mpr hx)]
      rw [hstep]
      obtain ⟨r, heq, hle, hmin, hpos⟩ := ih x
      refine ⟨r, heq, le_of_lt (lt_of_le_of_lt hle hx), ?_, Or.inr ⟨lt_of_le_of_lt hle hx, ?_⟩⟩
      · intro m hm
        rcases List.mem_cons.mp hm with rfl | hm
        · exact hle
        · exact hmin m hm
      · rcases hpos with rfl | ⟨hlt, pre, suf, hsplit, hpre⟩
        · exact ⟨[], rest, rfl, by simp⟩
        · refine ⟨x :: pre, suf, by rw [hsplit]; rfl, ?_⟩
          intro m hm
          rcases List.mem_cons.mp hm with rfl | hm
          · exact hlt
          · exact hpre m hm
    · have hstep : nearestStep d (some b, (d b : WithTop α)) x =
          (some b, (d b : WithTop α)) := by
        rw [nearestStep, if_neg]
        intro hc
        exact hx (WithTop.coe_lt_coe.mp hc)
      rw [hstep]
      obtain ⟨r, heq, hle, hmin, hpos⟩ := ih b
      refine ⟨r, heq, hle, ?_, ?_⟩
      · intro m hm
        rcases List.mem_cons.mp hm with rfl | hm
        · exact le_trans hle (le_of_not_lt hx)
        · exact hmin m hm
      · rcases hpos with rfl | ⟨hlt, pre, suf, hsplit, hpre⟩
        · exact Or.inl rfl
        · refine Or.inr ⟨hlt, x :: pre, suf, by rw [hsplit]; rfl, ?_⟩
          intro m hm
          rcases List.mem_cons.mp hm with rfl | hm
          · exact lt_of_lt_of_le hlt (le_of_not_lt hx)
          · exact hpre m hm

/-- The scan over a non-empty node list returns the first global
minimizer together with its distance. -/
theorem scanNearest_spec {ν α : Type} [LinearOrder α] (d : ν → α) (n0 : ν)
    (ns : List ν) :
    ∃ r, scanNearest d (n0 :: ns) = (some r, (d r : WithTop α)) ∧
      (∀ m ∈ n0 :: ns, d r ≤ d m) ∧
      ∃ pre suf, n0 :: ns = pre ++ r :: suf ∧ ∀ m ∈ pre, d r < d m := by
  have hstep : nearestStep d ((none : Option ν), (⊤ : WithTop α)) n0 =
      (some n0, (d n0 : WithTop α)) := by
    rw [nearestStep, if_pos]
    exact WithTop.coe_lt_top _
  rw [scanNearest, List.foldl_cons, hstep]
  obtain ⟨r, heq, hle, hmin, hpos⟩ := nearestFold_spec d ns n0
  refine ⟨r, heq, ?_, ?_⟩
  · intro m hm
    rcases List.mem_cons.mp hm with rfl | hm
    · exact hle
    · exact hmin m hm
  · rcases hpos with rfl | ⟨hlt, pre, suf, hsplit, hpre⟩
    · exact ⟨[], ns, rfl, by simp⟩
    · refine ⟨n0 :: pre, suf, by rw [hsplit]; rfl, ?_⟩
      intro m hm
      rcases List.mem_cons.mp hm with rfl | hm
      · exact hlt
      · exact hpre m hm

/-- C6: on a non-empty node list, `find_nearest_node` returns no node
exactly when the minimum distance exceeds the maximum radius (every
node's distance exceeds it); otherwise it returns a node attaining the
minimum distance, together with that distance (at most the radius).
Stated for an arbitrary linearly ordered distance function, which covers
the haversine distance to the target used in the source. -/
theorem find_nearest_node_radius {ν α : Type} [LinearOrder α] (d : ν → α)
    (nodes : List ν) (maxDist : α) (hne : nodes ≠ []) :
    ((find_nearest_node d nodes maxDist).1 = none ↔ ∀ m ∈ nodes, maxDist < d m) ∧
    ∀ n, (find_nearest_node d nodes maxDist).1 = some n →
      (∀ m ∈ nodes, d n ≤ d m) ∧
      (find_nearest_node d nodes maxDist).2 = (d n : WithTop α) ∧
      d n ≤ maxDist := by
  obtain ⟨n0, ns, rfl⟩ : ∃ n0 ns, nodes = n0 :: ns := by
    cases nodes with
    | nil => exact absurd rfl hne
    | cons a l => exact ⟨a, l, rfl⟩
  obtain ⟨r, heq, hmin, pre, suf, hsplit, _⟩ := scanNearest_spec d n0 ns
  have hrmem : r ∈ n0 :: ns := by rw [hsplit]; exact List.mem_append_right _ (List.mem_cons_self _ _)
  rw [find_nearest_node, heq]
  by_cases hgt : maxDist < d r
  · rw [if_pos (show (maxDist : WithTop α) < _ from WithTop.coe_lt_coe.mpr hgt)]
    refine ⟨⟨fun _ m hm => lt_of_lt_of_le hgt (hmin m hm), fun _ => rfl⟩, ?_⟩
    intro n hn
    exact absurd hn (by simp)
  · rw [if_neg (fun hc => hgt (WithTop.coe_lt_coe.mp hc))]
    constructor
    · constructor
      · intro hc
        exact absurd hc (by simp)
      · intro hall
        exact absurd (hall r hrmem) hgt
    · intro n hn
      obtain rfl : r = n := by simpa using hn
      exact ⟨hmin, rfl, le_of_not_lt hgt⟩

/-- C2 (amended): when `find_nearest_node` returns a node, that node
attains the minimum distance over the node list and is the FIRST node in
the graph's key iteration (insertion) order among the tied minimizers:
every strictly earlier node has strictly greater distance. (The source
breaks ties by iteration order, not by lexicographic order of the
coordinate key.) -/
theorem find_nearest_node_first_min {ν α : Type} [LinearOrder α] (d : ν → α)
    (nodes : List ν) (maxDist : α) (n : ν)
    (h : (find_nearest_node d nodes maxDist).1 = some n) :
    (∀ m ∈ nodes, d n ≤ d m) ∧
    ∃ pre suf, nodes = pre ++ n :: suf ∧ ∀ m ∈ pre, d n < d m := by
  cases nodes with
  | nil =>
    rw [find_nearest_node] at h
    simp only [scanNearest, List.foldl_nil] at h
    rw [if_pos (WithTop.coe_lt_top maxDist)] at h
    exact absurd h (by simp)
  | cons n0 ns =>
    obtain ⟨r, heq, hmin, pre, suf, hsplit, hpre⟩ := scanNearest_spec d n0 ns
    rw [find_nearest_node, heq] at h
    by_cases hgt : (maxDist : WithTop α) < (d r : WithTop α)
    · rw [if_pos hgt] at h
      exact absurd h (by simp)
    · rw [if_neg hgt] at h
      obtain rfl : r = n := by simpa using h
      exact ⟨hmin, pre, suf, hsplit, hpre⟩

/-! ### Real-analysis facts about the haversine formula -/

theorem haversine_nonneg (lat1 lon1 lat2 lon2 : ℝ) :
    0 ≤ haversine lat1 lon1 lat2 lon2 := by
  rw [haversine]
  have h1 : 0 ≤ Real.arcsin (Real.sqrt (Real.sin (radians (lat2 - lat1) / 2) ^ 2 +
      Real.cos (radians lat1) * Real.cos (radians lat2) *
        Real.sin (radians (lon2 - lon1) / 2) ^ 2)) :=
    Real.arcsin_nonneg.mpr (Real.sqrt_nonneg _)
  nlinarith

theorem haversine_from_origin (x : ℝ) :
    haversine 0 0 0 x =
      6371 * (2 * Real.arcsin (Real.sqrt (Real.sin (x * Real.pi / 180 / 2) ^ 2))) := by
  rw [haversine, radians, radians, radians]
  norm_num

/-- The symmetric tie used to refute claim C2: two nodes east and west of
the target at the same latitude are exactly equidistant. -/
theorem haversine_east_west_tie :
    haversine 0 0 0 (1 / 100) = haversine 0 0 0 (-1 / 100) := by
  rw [haversine_from_origin, haversine_from_origin]
  have h : (-1 : ℝ) / 100 * Real.pi / 180 / 2 = -(1 / 100 * Real.pi / 180 / 2) := by
    ring
  rw [h, Real.sin_neg, neg_sq]

/-- The tied distance is comfortably within the 10 km default radius. -/
theorem haversine_east_west_small : haversine 0 0 0 (1 / 100) ≤ 10 := by
  rw [haversine_from_origin]
  have hy : (1 : ℝ) / 100 * Real.pi / 180 / 2 = Real.pi / 36000 := by ring
  rw [hy]
  have hpi0 : (0 : ℝ) < Real.pi := Real.pi_pos
  have hy0 : (0 : ℝ) ≤ Real.pi / 36000 := by positivity
  have hyle : Real.pi / 36000 ≤ Real.pi / 2 := by linarith
  have hylepi : Real.pi / 36000 ≤ Real.pi := by linarith
  have hsin0 : 0 ≤ Real.sin (Real.pi / 36000) :=
    Real.sin_nonneg_of_nonneg_of_le_pi hy0 hylepi
  rw [Real.sqrt_sq_eq_abs, abs_of_nonneg hsin0,
    Real.arcsin_sin (by linarith) hyle]
  have hpi4 : Real.pi ≤ 4 := Real.pi_le_four
  linarith

/-- The distance of a coordinate-key node to the target (0, 0), as
computed inside `find_nearest_node` via `haversine`. -/
noncomputable def distToOrigin (p : Coord) : ℝ :=
  haversine 0 0 ((p.1 : ℝ)) ((p.2 : ℝ))

/-- C2 (counterexample): with target (0, 0) and the graph keys iterated
in the order [(0, 1/100), (0, -1/100)], both nodes attain the same
minimum haversine distance (within the 10 km radius), yet
`find_nearest_node` returns (0, 1/100), which is NOT the lexicographically
least tied minimizer: (0, -1/100) is lexicographically smaller. -/
theorem find_nearest_node_tie_cex :
    distToOrigin ((0 : ℚ), (1 / 100 : ℚ)) = distToOrigin ((0 : ℚ), (-1 / 100 : ℚ)) ∧
    distToOrigin ((0 : ℚ), (1 / 100 : ℚ)) ≤ 10 ∧
    (find_nearest_node distToOrigin
        [((0 : ℚ), (1 / 100 : ℚ)), ((0 : ℚ), (-1 / 100 : ℚ))] 10).1 =
      some ((0 : ℚ), (1 / 100 : ℚ)) ∧
    (((0 : ℚ), (-1 / 100 : ℚ)) : Coord) ≠ (((0 : ℚ), (1 / 100 : ℚ)) : Coord) ∧
    Prod.Lex (· < ·) (· < ·) (((0 : ℚ), (-1 / 100 : ℚ)) : Coord)
      (((0 : ℚ), (1 / 100 : ℚ)) : Coord) := by
  have hc1 : distToOrigin ((0 : ℚ), (1 / 100 : ℚ)) = haversine 0 0 0 (1 / 100) := by
    rw [distToOrigin]
    norm_num
  have hc2 : distToOrigin ((0 : ℚ), (-1 / 100 : ℚ)) = haversine 0 0 0 (-1 / 100) := by
    rw [distToOrigin]
    norm_num
  have htie : distToOrigin ((0 : ℚ), (1 / 100 : ℚ)) =
      distToOrigin ((0 : ℚ), (-1 / 100 : ℚ)) := by
    rw [hc1, hc2, haversine_east_west_tie]
  have hsmall : distToOrigin ((0 : ℚ), (1 / 100 : ℚ)) ≤ 10 := by
    rw [hc1]; exact haversine_east_west_small
  refine ⟨htie, hsmall, ?_, ?_, ?_⟩
  · have s1 : nearestStep distToOrigin ((none : Option Coord), (⊤ : WithTop ℝ))
        ((0 : ℚ), (1 / 100 : ℚ)) =
        (some ((0 : ℚ), (1 / 100 : ℚ)),
          (distToOrigin ((0 : ℚ), (1 / 100 : ℚ)) : WithTop ℝ)) := by
      rw [nearestStep, if_pos]
      exact WithTop.coe_lt_top _
    have s2 : nearestStep distToOrigin
        (some ((0 : ℚ), (1 / 100 : ℚ)),
          (distToOrigin ((0 : ℚ), (1 / 100 : ℚ)) : WithTop ℝ))
        ((0 : ℚ), (-1 / 100 : ℚ)) =
        (some ((0 : ℚ), (1 / 100 : ℚ)),
          (distToOrigin ((0 : ℚ), (1 / 100 : ℚ)) : WithTop ℝ)) := by
      rw [nearestStep, if_neg]
      intro hc
      have := WithTop.coe_lt_coe.mp hc
      rw [← htie] at this
      exact lt_irrefl _ this
    have e1 : scanNearest distToOrigin
        [((0 : ℚ), (1 / 100 : ℚ)), ((0 : ℚ), (-1 / 100 : ℚ))] =
        (some ((0 : ℚ), (1 / 100 : ℚ)),
          (distToOrigin ((0 : ℚ), (1 / 100 : ℚ)) : WithTop ℝ)) := by
      rw [scanNearest, List.foldl_cons, s1, List.foldl_cons, s2, List.foldl_nil]
    rw [find_nearest_node, e1, if_neg]
    intro hc
    exact absurd (WithTop.coe_lt_coe.mp hc) (not_lt.mpr hsmall)
  · intro hc
    have := congrArg Prod.snd hc
    norm_num at this
  · exact Prod.Lex.right (0 : ℚ) (by norm_num)

/-! ### C5: the point count of the assembled path -/

theorem getLast?_append_tail_of_head_eq {l1 l2 : List Coord} (_h1 : l1 ≠ [])
    (h2 : l2 ≠ []) (h : l1.getLast? = l2.head?) :
    (l1 ++ l2.tail).getLast? = l2.getLast? := by
  cases l2 with
  | nil => exact absurd rfl h2
  | cons b m =>
    cases m with
    | nil =>
      simp only [List.tail_cons, List.append_nil]
      simp only [List.head?_cons] at h
      simpa using h
    | cons c mm =>
      rw [List.tail_cons, List.getLast?_append_of_ne_nil _ (by simp),
        List.getLast?_cons_cons]

theorem ptcLoop_spec (store : GeomStore) :
    ∀ (path : List PathStep) (coords : List Coord),
      (∀ st ∈ path, (storeFind store st.1).isSome) →
      ∃ out, ptcLoop store path coords = some out ∧
        out.length + dupCountFrom store path coords.getLast? =
          coords.length + sumPoints store path := by
  intro path
  induction path with
  | nil =>
    intro coords _
    exact ⟨coords, rfl, by simp [dupCountFrom, sumPoints]⟩
  | cons st rest ih =>
    obtain ⟨sid, rev⟩ := st
    intro coords hall
    have hs : (storeFind store sid).isSome := hall (sid, rev) (List.mem_cons_self _ _)
    obtain ⟨geom, hg⟩ := Option.isSome_iff_exists.mp hs
    have hrest : ∀ st ∈ rest, (storeFind store st.1).isSome := fun st hst =>
      hall st (List.mem_cons_of_mem _ hst)
    have hsum : sumPoints store ((sid, rev) :: rest) =
        geom.length + sumPoints store rest := by
      simp [sumPoints, hg]
    have hplen : (orientGeom geom rev).length = geom.length := by
      rw [orientGeom]; split <;> simp
    have hloop : ptcLoop store ((sid, rev) :: rest) coords =
        ptcLoop store rest (coords ++
          (if coords ≠ [] ∧ orientGeom geom rev ≠ [] ∧
              coords.getLast? = (orientGeom geom rev).head?
           then (orientGeom geom rev).tail else orientGeom geom rev)) := by
      rw [ptcLoop, hg]
    cases hhd : (orientGeom geom rev).head? with
    | none =>
      have hpnil : orientGeom geom rev = [] := List.head?_eq_none_iff.mp hhd
      have hdup2 : dupCountFrom store ((sid, rev) :: rest) coords.getLast? =
          dupCountFrom store rest coords.getLast? := by
        rw [dupCountFrom, hg]
        simp only [Option.getD_some, hhd]
      have hcond : ¬(coords ≠ [] ∧ orientGeom geom rev ≠ [] ∧
          coords.getLast? = (orientGeom geom rev).head?) := by
        rw [hpnil]; simp
      rw [if_neg hcond, hpnil, List.append_nil] at hloop
      obtain ⟨out, hout, heq⟩ := ih coords hrest
      refine ⟨out, by rw [hloop]; exact hout, ?_⟩
      rw [hdup2, hsum]
      have hg0 : geom.length = 0 := by rw [← hplen, hpnil]; rfl
      omega
    | some p =>
      have hpne : orientGeom geom rev ≠ [] := by
        intro hc
        rw [hc] at hhd
        exact absurd hhd (by simp)
      have hdup2 : dupCountFrom store ((sid, rev) :: rest) coords.getLast? =
          (if coords.getLast? = some p then 1 else 0) +
            dupCountFrom store rest (orientGeom geom rev).getLast? := by
        rw [dupCountFrom, hg]
        simp only [Option.getD_some, hhd]
      by_cases hcond : coords ≠ [] ∧ orientGeom geom rev ≠ [] ∧
          coords.getLast? = (orientGeom geom rev).head?
      · rw [if_pos hcond] at hloop
        obtain ⟨out, hout, heq⟩ := ih (coords ++ (orientGeom geom rev).tail) hrest
        have hlast : (coords ++ (orientGeom geom rev).tail).getLast? =
            (orientGeom geom rev).getLast? :=
          getLast?_append_tail_of_head_eq hcond.1 hpne hcond.2.2
        refine ⟨out, by rw [hloop]; exact hout, ?_⟩
        rw [hdup2, hsum, if_pos (by rw [hcond.2.2, hhd])]
        rw [hlast] at heq
        have hlen2 : (coords ++ (orientGeom geom rev).tail).length + 1 =
            coords.length + (orientGeom geom rev).length := by
          rw [List.length_append, List.length_tail]
          have hpos : 0 < (orientGeom geom rev).length := List.length_pos.mpr hpne
          omega
        rw [← hplen]
        omega
      · rw [if_neg hcond] at hloop
        obtain ⟨out, hout, heq⟩ := ih (coords ++ orientGeom geom rev) hrest
        have hlast : (coords ++ orientGeom geom rev).getLast? =
            (orientGeom geom rev).getLast? :=
          List.getLast?_append_of_ne_nil _ hpne
        have hnd : ¬(coords.getLast? = some p) := by
          intro hc
          apply hcond
          refine ⟨?_, hpne, by rw [hhd, hc]⟩
          intro hcnil
          rw [hcnil] at hc
          exact absurd hc (by simp)
        refine ⟨out, by rw [hloop]; exact hout, ?_⟩
        rw [hdup2, hsum, if_neg hnd]
        rw [hlast] at heq
        rw [List.length_append] at heq
        rw [← hplen]
        omega

/-- C5: for a path whose segment ids are all present in the geometry
store, `path_to_coordinates` succeeds and its output length equals the
sum of the per-segment (oriented) point counts minus the number of
junction duplicates, a duplicate being counted exactly when the last
emitted point equals the first point of the next segment's (possibly
reversed) point list. -/
theorem path_to_coordinates_length (store : GeomStore) (path : List PathStep)
    (h : ∀ st ∈ path, (storeFind store st.1).isSome) :
    ∃ out, path_to_coordinates path store = some out ∧
      dupCount store path ≤ sumPoints store path ∧
      out.length = sumPoints store path - dupCount store path := by
  obtain ⟨out, hout, heq⟩ := ptcLoop_spec store path [] h
  have h0 : dupCountFrom store path (([] : List Coord)).getLast? =
      dupCount store path := rfl
  rw [h0] at heq
  simp only [List.length_nil, zero_add] at heq
  exact ⟨out, hout, by omega, by omega⟩

/-! ### C8: the emitted cumulative distances -/

theorem cumDistLoop_head (prev : Coord) (acc : ℝ) (l : List Coord) :
    (cumDistLoop prev acc l).head? = some acc := by
  cases l <;> rfl

theorem cumDistLoop_chain (l : List Coord) :
    ∀ (prev : Coord) (acc : ℝ), List.Chain' (· ≤ ·) (cumDistLoop prev acc l) := by
  induction l with
  | nil => intro prev acc; simp [cumDistLoop]
  | cons c cs ih =>
    intro prev acc
    rw [cumDistLoop, List.chain'_cons']
    refine ⟨?_, ih c _⟩
    intro y hy
    rw [cumDistLoop_head] at hy
    obtain rfl : acc + haversine (prev.1 : ℝ) (prev.2 : ℝ) (c.1 : ℝ) (c.2 : ℝ) * 1000 = y := by
      simpa using hy
    have h0 := haversine_nonneg (prev.1 : ℝ) (prev.2 : ℝ) (c.1 : ℝ) (c.2 : ℝ)
    nlinarith

/-- C8: for every assembled coordinate list, the emitted
`shape_dist_traveled` column starts at exactly 0 for the first point and
is non-decreasing along the point sequence. -/
theorem shape_dist_column_spec (coords : List Coord) :
    (coords ≠ [] → (shapeDistColumn coords).head? = some 0) ∧
    List.Chain' (· ≤ ·) (shapeDistColumn coords) := by
  cases coords with
  | nil => exact ⟨fun hc => absurd rfl hc, by simp [shapeDistColumn]⟩
  | cons c cs =>
    exact ⟨fun _ => cumDistLoop_head c 0 cs, cumDistLoop_chain cs c 0⟩

/-! ### C4: two edges per valid segment -/

theorem buildStep_invalid (acc : TrackGraph Coord × GeomStore) (seg : Seg)
    (h : seg.geometry.length < 2) : buildStep acc seg = acc := by
  rw [buildStep, if_pos h]

theorem buildStep_valid (acc : TrackGraph Coord × GeomStore) (seg : Seg)
    (h : 2 ≤ seg.geometry.length) :
    buildStep acc seg =
      (graphAppend
        (graphAppend acc.1 (coord_key (seg.geometry.headD (0, 0)))
          (coord_key (seg.geometry.getLastD (0, 0)), seg.id, false))
        (coord_key (seg.geometry.getLastD (0, 0)))
        (coord_key (seg.geometry.headD (0, 0)), seg.id, true),
       storeSet acc.2 seg.id seg.geometry) := by
  rw [buildStep, if_neg (by omega)]

theorem countEdges_graphAppend {ν : Type} [DecidableEq ν] (g : TrackGraph ν)
    (n : ν) (e : GEdge ν) (sid : SegId) :
    countEdgesWithId (graphAppend g n e) sid =
      countEdgesWithId g sid + (if e.2.1 = sid then 1 else 0) := by
  induction g with
  | nil =>
    show (allEdges [(n, [e])]).countP _ = (allEdges []).countP _ + _
    rw [allEdges_cons]
    by_cases h : e.2.1 = sid <;> simp [allEdges, List.countP_cons, h]

  | cons hd tl ih =>
    obtain ⟨k, es⟩ := hd
    rw [graphAppend_cons]
    by_cases hk : k = n
    · rw [if_pos hk]
      show ((es ++ [e]) ++ allEdges tl).countP _ = (es ++ allEdges tl).countP _ + _
      simp only [List.countP_append, List.countP_cons, List.countP_nil]
      by_cases h : e.2.1 = sid
      · simp [h]
        omega
      · simp [h]
    · rw [if_neg hk]
      show (es ++ allEdges (graphAppend tl n e)).countP _ =
        (es ++ allEdges tl).countP _ + _
      simp only [List.countP_append]
      have := ih
      unfold countEdgesWithId at this
      omega

theorem buildFold_count (segs : List Seg) :
    ∀ (acc : TrackGraph Coord × GeomStore) (sid : SegId),
      countEdgesWithId ((segs.foldl buildStep acc).1) sid =
        countEdgesWithId acc.1 sid +
          2 * segs.countP
            (fun s => decide (s.id = sid) && decide (2 ≤ s.geometry.length)) := by
  induction segs with
  | nil => intro acc sid; simp
  | cons s rest ih =>
    intro acc sid
    rw [List.foldl_cons, ih, List.countP_cons]
    by_cases hv : 2 ≤ s.geometry.length
    · rw [buildStep_valid acc s hv]
      simp only [countEdges_graphAppend]
      by_cases hid : s.id = sid
      · have h1 : (if (decide (s.id = sid) && decide (2 ≤ s.geometry.length)) = true
            then 1 else 0) = 1 := by simp [hid, hv]
        rw [h1]
        simp only [hid]
        simp
        omega
      · have h1 : (if (decide (s.id = sid) && decide (2 ≤ s.geometry.length)) = true
            then 1 else 0) = 0 := by simp [hid]
        rw [h1]
        simp [hid]
    · rw [buildStep_invalid acc s (by omega)]
      have h1 : (if (decide (s.id = sid) && decide (2 ≤ s.geometry.length)) = true
          then 1 else 0) = 0 := by simp [hv]
      rw [h1]
      omega

theorem buildFold_mem (segs : List Seg) :
    ∀ (acc : TrackGraph Coord × GeomStore) (m : Coord) (x : GEdge Coord),
      x ∈ graphGet acc.1 m → x ∈ graphGet ((segs.foldl buildStep acc).1) m := by
  induction segs with
  | nil => intro acc m x h; exact h
  | cons s rest ih =>
    intro acc m x h
    rw [List.foldl_cons]
    apply ih
    by_cases hv : 2 ≤ s.geometry.length
    · rw [buildStep_valid acc s hv]
      exact mem_graphGet_append _ _ (mem_graphGet_append _ _ h)
    · rw [buildStep_invalid acc s (by omega)]
      exact h

theorem buildFold_store_frozen (segs : List Seg) :
    ∀ (acc : TrackGraph Coord × GeomStore) (k : SegId),
      (∀ s ∈ segs, s.id = k → s.geometry.length < 2) →
      storeFind ((segs.foldl buildStep acc).2) k = storeFind acc.2 k := by
  induction segs with
  | nil => intro acc k _; rfl
  | cons s rest ih =>
    intro acc k hk
    rw [List.foldl_cons]
    rw [ih _ _ (fun s2 hs2 => hk s2 (List.mem_cons_of_mem _ hs2))]
    by_cases hv : 2 ≤ s.geometry.length
    · rw [buildStep_valid acc s hv]
      have hne : s.id ≠ k := by
        intro hc
        have := hk s (List.mem_cons_self _ _) hc
        omega
      exact storeFind_set_other _ _ _ _ (fun hc => hne hc.symm)
    · rw [buildStep_invalid acc s (by omega)]

theorem nodup_countP_one (segs : List Seg) (seg : Seg)
    (hnd : (segs.map Seg.id).Nodup) (hmem : seg ∈ segs)
    (hv : 2 ≤ seg.geometry.length) :
    segs.countP
      (fun s => decide (s.id = seg.id) && decide (2 ≤ s.geometry.length)) = 1 := by
  obtain ⟨pre, suf, rfl⟩ := List.append_of_mem hmem
  rw [List.map_append, List.map_cons] at hnd
  rw [List.nodup_append] at hnd
  obtain ⟨hnd1, hnd2, hdisj⟩ := hnd
  have hpre : ∀ s ∈ pre, s.id ≠ seg.id := by
    intro s hs hc
    exact hdisj (List.mem_map_of_mem Seg.id hs) (by rw [hc]; exact List.mem_cons_self _ _)
  have hsuf : ∀ s ∈ suf, s.id ≠ seg.id := by
    intro s hs hc
    rw [List.nodup_cons] at hnd2
    exact hnd2.1 (by rw [← hc]; exact List.mem_map_of_mem Seg.id hs)
  rw [List.countP_append, List.countP_cons]
  have h1 : pre.countP
      (fun s => decide (s.id = seg.id) && decide (2 ≤ s.geometry.length)) = 0 := by
    rw [List.countP_eq_zero]
    intro s hs
    simp [hpre s hs]
  have h2 : suf.countP
      (fun s => decide (s.id = seg.id) && decide (2 ≤ s.geometry.length)) = 0 := by
    rw [List.countP_eq_zero]
    intro s hs
    simp [hsuf s hs]
  have h3 : (decide (seg.id = seg.id) && decide (2 ≤ seg.geometry.length)) = true := by
    simp [hv]
  rw [h1, h2, h3]
  norm_num

theorem nodup_countP_zero (segs : List Seg) (seg : Seg)
    (hnd : (segs.map Seg.id).Nodup) (hmem : seg ∈ segs)
    (hinv : seg.geometry.length < 2) :
    segs.countP
      (fun s => decide (s.id = seg.id) && decide (2 ≤ s.geometry.length)) = 0 := by
  obtain ⟨pre, suf, rfl⟩ := List.append_of_mem hmem
  rw [List.map_append, List.map_cons] at hnd
  rw [List.nodup_append] at hnd
  obtain ⟨hnd1, hnd2, hdisj⟩ := hnd
  rw [List.countP_eq_zero]
  intro s hs
  rcases List.mem_append.mp hs with hs1 | hs2
  · have : s.id ≠ seg.id := fun hc =>
      hdisj (List.mem_map_of_mem Seg.id hs1) (by rw [hc]; exact List.mem_cons_self _ _)
    simp [this]
  · rcases List.mem_cons.mp hs2 with rfl | hs3
    · simp
      omega
    · have : s.id ≠ seg.id := by
        intro hc
        rw [List.nodup_cons] at hnd2
        exact hnd2.1 (by rw [← hc]; exact List.mem_map_of_mem Seg.id hs3)
      simp [this]

theorem nodup_id_unique (segs : List Seg) (seg : Seg)
    (hnd : (segs.map Seg.id).Nodup) (hmem : seg ∈ segs) :
    ∀ s ∈ segs, s.id = seg.id → s = seg := by
  obtain ⟨pre, suf, rfl⟩ := List.append_of_mem hmem
  rw [List.map_append, List.map_cons] at hnd
  rw [List.nodup_append] at hnd
  obtain ⟨hnd1, hnd2, hdisj⟩ := hnd
  intro s hs hid
  rcases List.mem_append.mp hs with hs1 | hs2
  · exact absurd (List.mem_map_of_mem Seg.id hs1)
      (fun hc => hdisj hc (by rw [hid]; exact List.mem_cons_self _ _))
  · rcases List.mem_cons.mp hs2 with rfl | hs3
    · rfl
    · rw [List.nodup_cons] at hnd2
      exact absurd (by rw [← hid]; exact List.mem_map_of_mem Seg.id hs3) hnd2.1

/-- C4 (amended): assuming the filtered segments carry pairwise distinct
ids (true of OSM way ids), every segment with at least 2 geometry points
contributes exactly two edges with its id — (start key → end key,
forward) and (end key → start key, reverse) — and its geometry is stored;
a segment with fewer than 2 points contributes no edge and no geometry
entry. Without the distinctness assumption the count can exceed two, see
the counterexample. -/
theorem build_track_graph_two_edges (segs : List Seg) (seg : Seg)
    (hnd : (segs.map Seg.id).Nodup) (hmem : seg ∈ segs) :
    (2 ≤ seg.geometry.length →
      (coord_key (seg.geometry.getLastD (0, 0)), seg.id, false) ∈
        graphGet (build_track_graph segs).1 (coord_key (seg.geometry.headD (0, 0))) ∧
      (coord_key (seg.geometry.headD (0, 0)), seg.id, true) ∈
        graphGet (build_track_graph segs).1 (coord_key (seg.geometry.getLastD (0, 0))) ∧
      countEdgesWithId (build_track_graph segs).1 seg.id = 2 ∧
      storeFind (build_track_graph segs).2 seg.id = some seg.geometry) ∧
    (seg.geometry.length < 2 →
      countEdgesWithId (build_track_graph segs).1 seg.id = 0 ∧
      storeFind (build_track_graph segs).2 seg.id = none) := by
  constructor
  · intro hv
    have hcount : countEdgesWithId (build_track_graph segs).1 seg.id = 2 := by
      rw [build_track_graph, buildFold_count segs ([], []) seg.id,
        nodup_countP_one segs seg hnd hmem hv]
      rfl
    obtain ⟨pre, suf, hsplit⟩ := List.append_of_mem hmem
    have hbuild : build_track_graph segs =
        suf.foldl buildStep (buildStep (pre.foldl buildStep ([], [])) seg) := by
      rw [build_track_graph, hsplit, List.foldl_append, List.foldl_cons]
    have hsufid : ∀ s ∈ suf, s.id = seg.id → s.geometry.length < 2 := by
      intro s hs hid
      rw [hsplit, List.map_append, List.map_cons, List.nodup_append] at hnd
      rw [List.nodup_cons] at hnd
      exact absurd (by rw [← hid]; exact List.mem_map_of_mem Seg.id hs) hnd.2.1.1
    set acc1 := pre.foldl buildStep ([], []) with hacc1
    have hstep := buildStep_valid acc1 seg hv
    have hm1 : (coord_key (seg.geometry.getLastD (0, 0)), seg.id, false) ∈
        graphGet (buildStep acc1 seg).1 (coord_key (seg.geometry.headD (0, 0))) := by
      rw [hstep]
      apply mem_graphGet_append
      rw [graphGet_append_same]
      exact List.mem_append_right _ (List.mem_singleton.mpr rfl)
    have hm2 : (coord_key (seg.geometry.headD (0, 0)), seg.id, true) ∈
        graphGet (buildStep acc1 seg).1 (coord_key (seg.geometry.getLastD (0, 0))) := by
      rw [hstep]
      rw [graphGet_append_same]
      exact List.mem_append_right _ (List.mem_singleton.mpr rfl)
    have hstore : storeFind (build_track_graph segs).2 seg.id = some seg.geometry := by
      rw [hbuild, buildFold_store_frozen suf _ seg.id hsufid, hstep]
      exact storeFind_set_same _ _ _
    exact ⟨by rw [hbuild]; exact buildFold_mem suf _ _ _ hm1,
      by rw [hbuild]; exact buildFold_mem suf _ _ _ hm2, hcount, hstore⟩
  · intro hinv
    have hcount : countEdgesWithId (build_track_graph segs).1 seg.id = 0 := by
      rw [build_track_graph, buildFold_count segs ([], []) seg.id,
        nodup_countP_zero segs seg hnd hmem hinv]
      rfl
    have hstore : storeFind (build_track_graph segs).2 seg.id = none := by
      rw [build_track_graph,
        buildFold_store_frozen segs ([], []) seg.id
          (fun s hs hid => by
            rw [nodup_id_unique segs seg hnd hmem s hs hid]
            exact hinv)]
      rfl
    exact ⟨hcount, hstore⟩

/-- C4 (counterexample): with two valid segments sharing id 5, the built
graph contains four edges carrying id 5, not two — the "exactly two edges
per segment id" property fails when input ids repeat. -/
theorem build_track_graph_two_edges_cex :
    ((⟨5, [((0 : ℚ), (0 : ℚ)), (1, 1)]⟩ : Seg) ∈
      ([⟨5, [((0 : ℚ), (0 : ℚ)), (1, 1)]⟩, ⟨5, [((2 : ℚ), (2 : ℚ)), (3, 3)]⟩] : List Seg)) ∧
    2 ≤ ([((0 : ℚ), (0 : ℚ)), (1, 1)] : List Coord).length ∧
    countEdgesWithId
      (build_track_graph
        [⟨5, [((0 : ℚ), (0 : ℚ)), (1, 1)]⟩, ⟨5, [((2 : ℚ), (2 : ℚ)), (3, 3)]⟩]).1 5 = 4 := by
  refine ⟨List.mem_cons_self _ _, by norm_num, ?_⟩
  norm_num [build_track_graph, buildStep, coord_key, roundTo4, round_eq,
    graphAppend, storeSet, countEdgesWithId, allEdges, List.countP_cons,
    Prod.ext_iff]

/-! ### C1 and C10: breadth-first search -/

theorem Walk.snoc {ν : Type} [DecidableEq ν] {g : TrackGraph ν} {a b c : ν}
    {p : List PathStep} {sid : SegId} {rev : Bool}
    (hw : Walk g a b p) (he : (c, sid, rev) ∈ graphGet g b) :
    Walk g a c (p ++ [(sid, rev)]) := by
  induction hw with
  | nil n => exact Walk.cons he (Walk.nil c)
  | cons hedge _ ih => exact Walk.cons hedge (ih he)

theorem Walk.length_pos {ν : Type} [DecidableEq ν] {g : TrackGraph ν}
    {a b : ν} {u : List PathStep} (h : Walk g a b u) (hne : a ≠ b) :
    1 ≤ u.length := by
  cases h with
  | nil => exact absurd rfl hne
  | cons => simp

theorem walk_step_ids {ν : Type} [DecidableEq ν] {g : TrackGraph ν} {a b : ν}
    {p : List PathStep} (h : Walk g a b p) :
    ∀ st ∈ p, ∃ ed ∈ allEdges g, ed.2.1 = st.1 := by
  induction h with
  | nil => simp
  | cons hedge _ ih =>
    intro st hst
    rcases List.mem_cons.mp hst with rfl | hst2
    · exact ⟨_, mem_graphGet_allEdges hedge, rfl⟩
    · exact ih st hst2

theorem expandEdges_error {ν : Type} [DecidableEq ν] {endNode : ν}
    {path : List PathStep} :
    ∀ {es : List (GEdge ν)} {V0 : Finset ν} {acc : List (ν × List PathStep)}
      {p : List PathStep},
      expandEdges endNode path es V0 acc = .error p →
      ∃ sid rev, (endNode, sid, rev) ∈ es ∧ p = path ++ [(sid, rev)] := by
  intro es
  induction es with
  | nil =>
    intro V0 acc p h
    exact absurd h (by simp [expandEdges])
  | cons ed es ih =>
    obtain ⟨nxt, sid, rev⟩ := ed
    intro V0 acc p h
    rw [expandEdges] at h
    by_cases h1 : nxt ∈ V0
    · rw [if_pos h1] at h
      obtain ⟨sid2, rev2, hmem, hp⟩ := ih h
      exact ⟨sid2, rev2, List.mem_cons_of_mem _ hmem, hp⟩
    · rw [if_neg h1] at h
      by_cases h2 : nxt = endNode
      · subst h2
        rw [if_pos rfl] at h
        injection h with h
        exact ⟨sid, rev, List.mem_cons_self _ _, h.symm⟩
      · rw [if_neg h2] at h
        obtain ⟨sid2, rev2, hmem, hp⟩ := ih h
        exact ⟨sid2, rev2, List.mem_cons_of_mem _ hmem, hp⟩

theorem expandEdges_ok {ν : Type} [DecidableEq ν] {endNode : ν}
    {path : List PathStep} :
    ∀ {es : List (GEdge ν)} {V0 : Finset ν} {acc : List (ν × List PathStep)}
      {V1 : Finset ν} {N : List (ν × List PathStep)},
      endNode ∉ V0 →
      expandEdges endNode path es V0 acc = .ok (V1, N) →
      ∃ L, N = acc ++ L ∧ V0 ⊆ V1 ∧ endNode ∉ V1 ∧
        (∀ x ∈ L, ∃ nxt sid rev, x = (nxt, path ++ [(sid, rev)]) ∧
          (nxt, sid, rev) ∈ es ∧ nxt ≠ endNode ∧ nxt ∈ V1) ∧
        (∀ v ∈ V1, v ∈ V0 ∨ ∃ q, (v, q) ∈ L) ∧
        (∀ x ∈ es, x.1 ∈ V1) := by
  intro es
  induction es with
  | nil =>
    intro V0 acc V1 N he h
    rw [expandEdges] at h
    injection h with h
    rw [Prod.mk.injEq] at h
    obtain ⟨rfl, rfl⟩ := h
    refine ⟨[], by simp, le_refl _, he, by simp, fun v hv => Or.inl hv, by simp⟩
  | cons ed es ih =>
    obtain ⟨nxt, sid, rev⟩ := ed
    intro V0 acc V1 N he h
    rw [expandEdges] at h
    by_cases h1 : nxt ∈ V0
    · rw [if_pos h1] at h
      obtain ⟨L, hN, hsub, hend, hL, hV, hes⟩ := ih he h
      refine ⟨L, hN, hsub, hend, ?_, hV, ?_⟩
      · intro x hx
        obtain ⟨nxt2, sid2, rev2, hx1, hx2, hx3, hx4⟩ := hL x hx
        exact ⟨nxt2, sid2, rev2, hx1, List.mem_cons_of_mem _ hx2, hx3, hx4⟩
      · intro x hx
        rcases List.mem_cons.mp hx with rfl | hx2
        · exact hsub h1
        · exact hes x hx2
    · rw [if_neg h1] at h
      by_cases h2 : nxt = endNode
      · rw [if_pos h2] at h
        exact absurd h (by simp)
      · rw [if_neg h2] at h
        have he2 : endNode ∉ insert nxt V0 := by
          rw [Finset.mem_insert]
          push_neg
          exact ⟨fun hc => h2 hc.symm, he⟩
        obtain ⟨L, hN, hsub, hend, hL, hV, hes⟩ := ih he2 h
        refine ⟨(nxt, path ++ [(sid, rev)]) :: L, by rw [hN]; simp, ?_, hend, ?_, ?_, ?_⟩
        · exact fun v hv => hsub (Finset.mem_insert_of_mem hv)
        · intro x hx
          rcases List.mem_cons.mp hx with rfl | hx2
          · exact ⟨nxt, sid, rev, rfl, List.mem_cons_self _ _, h2,
              hsub (Finset.mem_insert_self _ _)⟩
          · obtain ⟨nxt2, sid2, rev2, hx1, hx2b, hx3, hx4⟩ := hL x hx2
            exact ⟨nxt2, sid2, rev2, hx1, List.mem_cons_of_mem _ hx2b, hx3, hx4⟩
        · intro v hv
          rcases hV v hv with hv1 | ⟨q, hq⟩
          · rcases Finset.mem_insert.mp hv1 with rfl | hv2
            · exact Or.inr ⟨path ++ [(sid, rev)], List.mem_cons_self _ _⟩
            · exact Or.inl hv2
          · exact Or.inr ⟨q, List.mem_cons_of_mem _ hq⟩
        · intro x hx
          rcases List.mem_cons.mp hx with rfl | hx2
          · exact hsub (Finset.mem_insert_self _ _)
          · exact hes x hx2

/-- The two-block shape of the BFS queue: a block of paths of some length
k followed by a block of paths of length k + 1. -/
def QueueTwoBlocks {ν : Type} (Q : List (ν × List PathStep)) : Prop :=
  ∃ k A B, Q = A ++ B ∧ (∀ x ∈ A, x.2.length = k) ∧ (∀ x ∈ B, x.2.length = k + 1)

theorem front_min_of_blocks {ν : Type} {cur : ν} {path : List PathStep}
    {rest : List (ν × List PathStep)}
    (h : QueueTwoBlocks ((cur, path) :: rest)) :
    ∀ x ∈ (cur, path) :: rest, path.length ≤ x.2.length := by
  obtain ⟨k, A, B, hQ, hA, hB⟩ := h
  cases A with
  | nil =>
    simp only [List.nil_append] at hQ
    intro x hx
    have h1 : path.length = k + 1 :=
      hB (cur, path) (by rw [← hQ]; exact List.mem_cons_self _ _)
    have h2 : x.2.length = k + 1 := hB x (by rw [← hQ]; exact hx)
    omega
  | cons a A2 =>
    rw [List.cons_append] at hQ
    injection hQ with h1 h2
    have hplen : path.length = k := by
      have h3 := hA a (List.mem_cons_self _ _)
      rw [← h1] at h3
      exact h3
    intro x hx
    rcases List.mem_cons.mp hx with rfl | hx2
    · exact le_refl _
    · rw [h2] at hx2
      rcases List.mem_append.mp hx2 with h3 | h3
      · have := hA x (List.mem_cons_of_mem _ h3)
        omega
      · have := hB x h3
        omega

theorem window_of_blocks {ν : Type} {cur : ν} {path : List PathStep}
    {rest : List (ν × List PathStep)}
    (h : QueueTwoBlocks ((cur, path) :: rest)) :
    ∀ x ∈ (cur, path) :: rest, x.2.length ≤ path.length + 1 := by
  obtain ⟨k, A, B, hQ, hA, hB⟩ := h
  cases A with
  | nil =>
    simp only [List.nil_append] at hQ
    intro x hx
    have h1 : path.length = k + 1 :=
      hB (cur, path) (by rw [← hQ]; exact List.mem_cons_self _ _)
    have h2 : x.2.length = k + 1 := hB x (by rw [← hQ]; exact hx)
    omega
  | cons a A2 =>
    rw [List.cons_append] at hQ
    injection hQ with h1 h2
    have hplen : path.length = k := by
      have h3 := hA a (List.mem_cons_self _ _)
      rw [← h1] at h3
      exact h3
    intro x hx
    rcases List.mem_cons.mp hx with rfl | hx2
    · exact Nat.le_succ _
    · rw [h2] at hx2
      rcases List.mem_append.mp hx2 with h3 | h3
      · have := hA x (List.mem_cons_of_mem _ h3)
        omega
      · have := hB x h3
        omega

theorem blocks_tail_append {ν : Type} {cur : ν} {path : List PathStep}
    {rest : List (ν × List PathStep)}
    (h : QueueTwoBlocks ((cur, path) :: rest)) (N : List (ν × List PathStep))
    (hN : ∀ x ∈ N, x.2.length = path.length + 1) :
    QueueTwoBlocks (rest ++ N) := by
  obtain ⟨k, A, B, hQ, hA, hB⟩ := h
  cases A with
  | nil =>
    simp only [List.nil_append] at hQ
    have hplen : path.length = k + 1 :=
      hB (cur, path) (by rw [← hQ]; exact List.mem_cons_self _ _)
    refine ⟨k + 1, rest, N, rfl, ?_, ?_⟩
    · intro x hx
      have := hB x (by rw [← hQ]; exact List.mem_cons_of_mem _ hx)
      simpa using this
    · intro x hx
      rw [hN x hx, hplen]
  | cons a A2 =>
    rw [List.cons_append] at hQ
    injection hQ with h1 h2
    have hplen : path.length = k := by
      have h3 := hA a (List.mem_cons_self _ _)
      rw [← h1] at h3
      exact h3
    refine ⟨k, A2, B ++ N, by rw [h2, List.append_assoc], ?_, ?_⟩
    · exact fun x hx => hA x (List.mem_cons_of_mem _ hx)
    · intro x hx
      rcases List.mem_append.mp hx with h3 | h3
      · exact hB x h3
      · rw [hN x h3, hplen]

theorem bfsLoop_none_of_long {ν : Type} [DecidableEq ν] (g : TrackGraph ν)
    (endNode : ν) (maxSeg : ℕ) :
    ∀ (fuel : ℕ) (Q : List (ν × List PathStep)) (V : Finset ν),
      (∀ x ∈ Q, maxSeg < x.2.length) →
      bfsLoop g endNode maxSeg fuel Q V = none := by
  intro fuel
  induction fuel with
  | zero => intro Q V _; rfl
  | succ fuel ih =>
    intro Q V h
    cases Q with
    | nil => rfl
    | cons front rest =>
      obtain ⟨cur, path⟩ := front
      rw [bfsLoop, if_pos (h _ (List.mem_cons_self _ _))]
      exact ih rest V (fun x hx => h x (List.mem_cons_of_mem _ hx))

theorem walk_exit {ν : Type} [DecidableEq ν] {g : TrackGraph ν} {V : Finset ν}
    {m n : ν} {u : List PathStep} (hw : Walk g m n u) :
    m ∈ V → n ∉ V →
    ∃ y w2, y ∈ V ∧ Walk g y n w2 ∧
      (∃ x ∈ graphGet g y, x.1 ∉ V) ∧
      ((y = m ∧ w2 = u) ∨ w2.length < u.length) := by
  induction hw with
  | nil n =>
    intro hm hn
    exact absurd hm hn
  | cons hedge hrest ih =>
    rename_i a b c sid rev p
    intro ha hc
    by_cases hb : b ∈ V
    · obtain ⟨y, w2, hy, hw2, hex, hdisj⟩ := ih hb hc
      refine ⟨y, w2, hy, hw2, hex, Or.inr ?_⟩
      rcases hdisj with ⟨_, rfl⟩ | hlt
      · simp
      · simp only [List.length_cons]
        omega
    · exact ⟨a, (sid, rev) :: p, ha, Walk.cons hedge hrest,
        ⟨(b, sid, rev), hedge, hb⟩, Or.inl ⟨rfl, rfl⟩⟩

/-- The loop invariant of the BFS: queue entries are valid walks from `s`
that avoid `e`, the end node is unvisited, queue lengths form a two-block
window, every visited node is still queued or fully expanded into visited
nodes, and every walk from `s` to an unvisited node passes a queued node
with matching length bookkeeping. -/
structure BfsInv {ν : Type} [DecidableEq ν] (g : TrackGraph ν) (s e : ν)
    (Q : List (ν × List PathStep)) (V : Finset ν) : Prop where
  valid : ∀ x ∈ Q, Walk g s x.1 x.2
  notEnd : ∀ x ∈ Q, x.1 ≠ e
  endNot : e ∉ V
  memV : ∀ x ∈ Q, x.1 ∈ V
  blocks : QueueTwoBlocks Q
  closure : ∀ v ∈ V, (∃ q, (v, q) ∈ Q) ∨ ∀ x ∈ graphGet g v, x.1 ∈ V
  cut : ∀ n, n ∉ V → ∀ u, Walk g s n u →
    ∃ m q, (m, q) ∈ Q ∧ ∃ u2, Walk g m n u2 ∧ 1 ≤ u2.length ∧
      q.length + u2.length ≤ u.length

theorem bfsLoop_sound {ν : Type} [DecidableEq ν] (g : TrackGraph ν) (s e : ν)
    (maxSeg : ℕ) :
    ∀ (fuel : ℕ) (Q : List (ν × List PathStep)) (V : Finset ν)
      (p : List PathStep),
      BfsInv g s e Q V →
      bfsLoop g e maxSeg fuel Q V = some p →
      Walk g s e p ∧ ∀ u, Walk g s e u → p.length ≤ u.length := by
  intro fuel
  induction fuel with
  | zero =>
    intro Q V p _ h
    exact absurd h (by rw [bfsLoop]; simp)
  | succ fuel ih =>
    intro Q V p inv h
    cases Q with
    | nil => exact absurd h (by rw [bfsLoop]; simp)
    | cons front rest =>
      obtain ⟨cur, path⟩ := front
      by_cases hprune : maxSeg < path.length
      · have hall : ∀ x ∈ (cur, path) :: rest, maxSeg < x.2.length := by
          intro x hx
          have := front_min_of_blocks inv.blocks x hx
          omega
        rw [bfsLoop_none_of_long g e maxSeg (fuel + 1) _ V hall] at h
        exact absurd h (by simp)
      · rw [bfsLoop, if_neg hprune] at h
        cases hexp : expandEdges e path (graphGet g cur) V [] with
        | error p2 =>
          rw [hexp] at h
          obtain rfl : p2 = p := by injection h
          obtain ⟨sid, rev, hmem, rfl⟩ := expandEdges_error hexp
          have hwalk : Walk g s e (path ++ [(sid, rev)]) :=
            Walk.snoc (inv.valid (cur, path) (List.mem_cons_self _ _)) hmem
          refine ⟨hwalk, ?_⟩
          intro u hu
          obtain ⟨m, q, hmq, u2, hu2, hlen1, hlen2⟩ := inv.cut e inv.endNot u hu
          have hfm : path.length ≤ q.length := front_min_of_blocks inv.blocks (m, q) hmq
          simp only [List.length_append, List.length_singleton]
          omega
        | ok out =>
          obtain ⟨V2, N⟩ := out
          rw [hexp] at h
          obtain ⟨L, hNL, hsub, hend2, hL, hV2, hes⟩ := expandEdges_ok inv.endNot hexp
          rw [show N = L by simpa using hNL] at h
          have hcurV : cur ∈ V := inv.memV _ (List.mem_cons_self _ _)
          have hwalkfront : Walk g s cur path := inv.valid _ (List.mem_cons_self _ _)
          have hLlen : ∀ x ∈ L, x.2.length = path.length + 1 := by
            intro x hx
            obtain ⟨nxt, sid, rev, rfl, _, _, _⟩ := hL x hx
            simp
          have inv2 : BfsInv g s e (rest ++ L) V2 := by
            refine ⟨?_, ?_, hend2, ?_, ?_, ?_, ?_⟩
            · intro x hx
              rcases List.mem_append.mp hx with hx1 | hx2
              · exact inv.valid x (List.mem_cons_of_mem _ hx1)
              · obtain ⟨nxt, sid, rev, rfl, hedge, _, _⟩ := hL x hx2
                exact Walk.snoc hwalkfront hedge
            · intro x hx
              rcases List.mem_append.mp hx with hx1 | hx2
              · exact inv.notEnd x (List.mem_cons_of_mem _ hx1)
              · obtain ⟨nxt, sid, rev, rfl, _, hne, _⟩ := hL x hx2
                exact hne
            · intro x hx
              rcases List.mem_append.mp hx with hx1 | hx2
              · exact hsub (inv.memV x (List.mem_cons_of_mem _ hx1))
              · obtain ⟨nxt, sid, rev, rfl, _, _, hmem2⟩ := hL x hx2
                exact hmem2
            · exact blocks_tail_append inv.blocks L hLlen
            · intro v hv
              rcases hV2 v hv with hv1 | ⟨q, hq⟩
              · rcases inv.closure v hv1 with ⟨q, hq⟩ | hcl
                · rcases List.mem_cons.mp hq with heq | hq2
                  · rw [Prod.mk.injEq] at heq
                    rw [heq.1]
                    exact Or.inr (fun x hx => hes x hx)
                  · exact Or.inl ⟨q, List.mem_append_left _ hq2⟩
                · exact Or.inr (fun x hx => hsub (hcl x hx))
              · exact Or.inl ⟨q, List.mem_append_right _ hq⟩
            · intro n hn u hu
              have hnV : n ∉ V := fun hc => hn (hsub hc)
              obtain ⟨m, q, hmq, u2, hu2, hlen1, hlen2⟩ := inv.cut n hnV u hu
              rcases List.mem_cons.mp hmq with heq | hq2
              · rw [Prod.mk.injEq] at heq
                rw [heq.1] at hu2
                rw [heq.2] at hlen2
                have hcurV2 : cur ∈ V2 := hsub hcurV
                obtain ⟨y, w2, hy, hw2, ⟨xx, hxx, hxxV⟩, hdisj⟩ :=
                  walk_exit hu2 hcurV2 hn
                have hycur : y ≠ cur := by
                  rintro rfl
                  exact hxxV (hes xx hxx)
                have hstrict : w2.length < u2.length := by
                  rcases hdisj with ⟨hyeq, _⟩ | hlt
                  · exact absurd hyeq hycur
                  · exact hlt
                have hyQ : ∃ qy, (y, qy) ∈ rest ++ L := by
                  rcases hV2 y hy with hy1 | ⟨qy, hqy⟩
                  · rcases inv.closure y hy1 with ⟨qy, hqy⟩ | hcl
                    · rcases List.mem_cons.mp hqy with heq2 | hq3
                      · rw [Prod.mk.injEq] at heq2
                        exact absurd heq2.1 hycur
                      · exact ⟨qy, List.mem_append_left _ hq3⟩
                    · exact absurd (hsub (hcl xx hxx)) hxxV
                  · exact ⟨qy, List.mem_append_right _ hqy⟩
                obtain ⟨qy, hqy⟩ := hyQ
                have hqylen : qy.length ≤ path.length + 1 := by
                  rcases List.mem_append.mp hqy with h1 | h2
                  · exact window_of_blocks inv.blocks (y, qy) (List.mem_cons_of_mem _ h1)
                  · exact le_of_eq (hLlen (y, qy) h2)
                have hw2pos : 1 ≤ w2.length := by
                  apply Walk.length_pos hw2
                  rintro rfl
                  exact hn hy
                exact ⟨y, qy, hqy, w2, hw2, hw2pos, by omega⟩
              · exact ⟨m, q, List.mem_append_left _ hq2, u2, hu2, hlen1, hlen2⟩
          exact ih (rest ++ L) V2 p inv2 h

/-- Full soundness of `find_path_bfs`: any returned path is a walk of the
graph from the start node to the end node, and no walk between them is
strictly shorter. -/
theorem find_path_bfs_sound {ν : Type} [DecidableEq ν] (g : TrackGraph ν)
    (s e : ν) (maxSeg fuel : ℕ) (p : List PathStep)
    (h : find_path_bfs g s e maxSeg fuel = some p) :
    Walk g s e p ∧ ∀ u, Walk g s e u → p.length ≤ u.length := by
  rw [find_path_bfs] at h
  by_cases hse : s = e
  · rw [if_pos hse] at h
    obtain rfl : ([] : List PathStep) = p := by injection h
    subst hse
    exact ⟨Walk.nil s, fun u _ => by simp⟩
  · rw [if_neg hse] at h
    apply bfsLoop_sound g s e maxSeg fuel _ _ p _ h
    refine ⟨?_, ?_, ?_, ?_, ?_, ?_, ?_⟩
    · intro x hx
      obtain rfl : x = (s, ([] : List PathStep)) := List.mem_singleton.mp hx
      exact Walk.nil s
    · intro x hx
      obtain rfl : x = (s, ([] : List PathStep)) := List.mem_singleton.mp hx
      exact hse
    · rw [Finset.mem_singleton]
      exact fun hc => hse hc.symm
    · intro x hx
      obtain rfl : x = (s, ([] : List PathStep)) := List.mem_singleton.mp hx
      exact Finset.mem_singleton_self s
    · exact ⟨0, [(s, [])], [], by simp, by simp, by simp⟩
    · intro v hv
      obtain rfl : v = s := Finset.mem_singleton.mp hv
      exact Or.inl ⟨[], List.mem_singleton.mpr rfl⟩
    · intro n hn u hu
      refine ⟨s, [], List.mem_singleton.mpr rfl, u, hu, ?_, by simp⟩
      apply Walk.length_pos hu
      rintro rfl
      exact hn (Finset.mem_singleton_self s)

/-- C1: whenever `find_path_bfs` returns a path, that path is a genuine
sequence of graph edges from the start node to the end node, and it has
minimum hop count: no walk in the graph between the two nodes uses fewer
(segment id, direction) steps. -/
theorem find_path_bfs_shortest {ν : Type} [DecidableEq ν] (g : TrackGraph ν)
    (s e : ν) (maxSeg fuel : ℕ) (p : List PathStep)
    (h : find_path_bfs g s e maxSeg fuel = some p) :
    Walk g s e p ∧ ∀ u, Walk g s e u → p.length ≤ u.length :=
  find_path_bfs_sound g s e maxSeg fuel p h

theorem buildFold_edge_ids_stored (segs : List Seg) :
    ∀ (acc : TrackGraph Coord × GeomStore),
      (∀ x ∈ allEdges acc.1, (storeFind acc.2 x.2.1).isSome) →
      ∀ x ∈ allEdges ((segs.foldl buildStep acc).1),
        (storeFind ((segs.foldl buildStep acc).2) x.2.1).isSome := by
  induction segs with
  | nil => intro acc hacc; exact hacc
  | cons s rest ih =>
    intro acc hacc
    rw [List.foldl_cons]
    apply ih
    by_cases hv : 2 ≤ s.geometry.length
    · rw [buildStep_valid acc s hv]
      intro x hx
      rcases mem_allEdges_append hx with rfl | hx2
      · rw [storeFind_set_same]
        rfl
      · rcases mem_allEdges_append hx2 with rfl | hx3
        · rw [storeFind_set_same]
          rfl
        · exact storeFind_set_isSome _ _ _ _ (hacc x hx3)
    · rw [buildStep_invalid acc s (by omega)]
      exact hacc

/-- C10: in the graph and store built together by `build_track_graph`,
every edge's segment id has a geometry entry; consequently every path
returned by `find_path_bfs` over that graph consists of stored ids, and
`path_to_coordinates` never fails on it. -/
theorem build_graph_ids_safe (segs : List Seg) :
    (∀ x ∈ allEdges (build_track_graph segs).1,
      (storeFind (build_track_graph segs).2 x.2.1).isSome) ∧
    ∀ (sn en : Coord) (maxSeg fuel : ℕ) (p : List PathStep),
      find_path_bfs (build_track_graph segs).1 sn en maxSeg fuel = some p →
      (∀ st ∈ p, (storeFind (build_track_graph segs).2 st.1).isSome) ∧
      (path_to_coordinates p (build_track_graph segs).2).isSome := by
  have hstored : ∀ x ∈ allEdges (build_track_graph segs).1,
      (storeFind (build_track_graph segs).2 x.2.1).isSome := by
    rw [build_track_graph]
    apply buildFold_edge_ids_stored
    intro x hx
    exact absurd hx (by simp [allEdges])
  refine ⟨hstored, ?_⟩
  intro sn en maxSeg fuel p hp
  have hwalk := (find_path_bfs_sound _ _ _ _ _ _ hp).1
  have hids : ∀ st ∈ p, (storeFind (build_track_graph segs).2 st.1).isSome := by
    intro st hst
    obtain ⟨ed, hed, heq⟩ := walk_step_ids hwalk st hst
    rw [← heq]
    exact hstored ed hed
  refine ⟨hids, ?_⟩
  obtain ⟨out, hout, _⟩ := ptcLoop_spec (build_track_graph segs).2 p [] hids
  rw [path_to_coordinates, hout]
  rfl

/-! ### Concrete witnesses -/

theorem find_path_bfs_shortest_witness :
    find_path_bfs [((0 : ℕ), [((1 : ℕ), (7 : ℤ), false)])] 0 1 500 5 =
      some [((7 : ℤ), false)] ∧
    (Walk [((0 : ℕ), [((1 : ℕ), (7 : ℤ), false)])] 0 1 [((7 : ℤ), false)] ∧
      ∀ u, Walk [((0 : ℕ), [((1 : ℕ), (7 : ℤ), false)])] 0 1 u →
        ([((7 : ℤ), false)] : List PathStep).length ≤ u.length) :=
  ⟨by decide, find_path_bfs_shortest _ 0 1 500 5 _ (by decide)⟩

theorem find_nearest_node_first_min_witness :
    (find_nearest_node (fun n : ℕ => n) [3, 1, 2] 10).1 = some 1 ∧
    ((∀ m ∈ [3, 1, 2], (1 : ℕ) ≤ m) ∧
      ∃ pre suf, [3, 1, 2] = pre ++ 1 :: suf ∧ ∀ m ∈ pre, (1 : ℕ) < m) :=
  ⟨by decide, find_nearest_node_first_min (fun n : ℕ => n) [3, 1, 2] 10 1 (by decide)⟩

theorem same_node_route_is_silent_witness :
    find_path_bfs ([] : TrackGraph ℕ) 0 1 500 5 = none ∧
    routeShapeFromNodes ([] : TrackGraph ℕ) [] 0 1 5 = none :=
  ⟨by decide, (same_node_route_is_silent ([] : TrackGraph ℕ) [] 0 5).2.2 0 1 (by decide)⟩

theorem find_nearest_node_radius_witness :
    ([3, 1, 2] : List ℕ) ≠ [] ∧
    ((((find_nearest_node (fun n : ℕ => n) [3, 1, 2] 10).1 = none) ↔
        ∀ m ∈ [3, 1, 2], (10 : ℕ) < m) ∧
      ∀ n, (find_nearest_node (fun n : ℕ => n) [3, 1, 2] 10).1 = some n →
        (∀ m ∈ [3, 1, 2], n ≤ m) ∧
        (find_nearest_node (fun n : ℕ => n) [3, 1, 2] 10).2 = (n : WithTop ℕ) ∧
        n ≤ 10) :=
  ⟨by decide, find_nearest_node_radius (fun n : ℕ => n) [3, 1, 2] 10 (by decide)⟩

theorem build_track_graph_two_edges_witness :
    ((([⟨1, [((0 : ℚ), (0 : ℚ)), (1, 1)]⟩, ⟨2, [((5 : ℚ), (5 : ℚ))]⟩] : List Seg).map
        Seg.id).Nodup) ∧
    ((⟨1, [((0 : ℚ), (0 : ℚ)), (1, 1)]⟩ : Seg) ∈
      ([⟨1, [((0 : ℚ), (0 : ℚ)), (1, 1)]⟩, ⟨2, [((5 : ℚ), (5 : ℚ))]⟩] : List Seg)) ∧
    ((2 ≤ (Seg.geometry ⟨1, [((0 : ℚ), (0 : ℚ)), (1, 1)]⟩).length →
      (coord_key ((Seg.geometry ⟨1, [((0 : ℚ), (0 : ℚ)), (1, 1)]⟩).getLastD (0, 0)),
          (1 : ℤ), false) ∈
        graphGet
          (build_track_graph
            [⟨1, [((0 : ℚ), (0 : ℚ)), (1, 1)]⟩, ⟨2, [((5 : ℚ), (5 : ℚ))]⟩]).1
          (coord_key ((Seg.geometry ⟨1, [((0 : ℚ), (0 : ℚ)), (1, 1)]⟩).headD (0, 0))) ∧
      (coord_key ((Seg.geometry ⟨1, [((0 : ℚ), (0 : ℚ)), (1, 1)]⟩).headD (0, 0)),
          (1 : ℤ), true) ∈
        graphGet
          (build_track_graph
            [⟨1, [((0 : ℚ), (0 : ℚ)), (1, 1)]⟩, ⟨2, [((5 : ℚ), (5 : ℚ))]⟩]).1
          (coord_key ((Seg.geometry ⟨1, [((0 : ℚ), (0 : ℚ)), (1, 1)]⟩).getLastD (0, 0))) ∧
      countEdgesWithId
        (build_track_graph
          [⟨1, [((0 : ℚ), (0 : ℚ)), (1, 1)]⟩, ⟨2, [((5 : ℚ), (5 : ℚ))]⟩]).1 1 = 2 ∧
      storeFind
        (build_track_graph
          [⟨1, [((0 : ℚ), (0 : ℚ)), (1, 1)]⟩, ⟨2, [((5 : ℚ), (5 : ℚ))]⟩]).2 1 =
        some (Seg.geometry ⟨1, [((0 : ℚ), (0 : ℚ)), (1, 1)]⟩)) ∧
    ((Seg.geometry ⟨1, [((0 : ℚ), (0 : ℚ)), (1, 1)]⟩).length < 2 →
      countEdgesWithId
        (build_track_graph
          [⟨1, [((0 : ℚ), (0 : ℚ)), (1, 1)]⟩, ⟨2, [((5 : ℚ), (5 : ℚ))]⟩]).1 1 = 0 ∧
      storeFind
        (build_track_graph
          [⟨1, [((0 : ℚ), (0 : ℚ)), (1, 1)]⟩, ⟨2, [((5 : ℚ), (5 : ℚ))]⟩]).2 1 = none)) :=
  ⟨by decide, List.mem_cons_self _ _,
    build_track_graph_two_edges _ _ (by decide) (List.mem_cons_self _ _)⟩

theorem path_to_coordinates_length_witness :
    (∀ st ∈ ([((1 : ℤ), false)] : List PathStep),
      (storeFind [((1 : ℤ), [((0 : ℚ), (0 : ℚ)), (1, 1)])] st.1).isSome) ∧
    ∃ out,
      path_to_coordinates [((1 : ℤ), false)]
        [((1 : ℤ), [((0 : ℚ), (0 : ℚ)), (1, 1)])] = some out ∧
      dupCount [((1 : ℤ), [((0 : ℚ), (0 : ℚ)), (1, 1)])] [((1 : ℤ), false)] ≤
        sumPoints [((1 : ℤ), [((0 : ℚ), (0 : ℚ)), (1, 1)])] [((1 : ℤ), false)] ∧
      out.length =
        sumPoints [((1 : ℤ), [((0 : ℚ), (0 : ℚ)), (1, 1)])] [((1 : ℤ), false)] -
          dupCount [((1 : ℤ), [((0 : ℚ), (0 : ℚ)), (1, 1)])] [((1 : ℤ), false)] :=
  ⟨by decide, path_to_coordinates_length _ _ (by decide)⟩

theorem load_osm_data_mem_iff_witness :
    (⟨1, [], some [((0 : ℚ), (0 : ℚ))]⟩ : RawElem) ∈
      load_osm_data [⟨1, [], some [((0 : ℚ), (0 : ℚ))]⟩] :=
  (load_osm_data_mem_iff _ _).mpr
    ⟨List.mem_cons_self _ _, by decide, by decide, [((0 : ℚ), (0 : ℚ))], rfl, by simp⟩

theorem shape_dist_column_spec_witness :
    ([((0 : ℚ), (0 : ℚ))] : List Coord) ≠ [] ∧
    (shapeDistColumn [((0 : ℚ), (0 : ℚ))]).head? = some 0 :=
  ⟨by simp, (shape_dist_column_spec _).1 (by simp)⟩

theorem build_graph_ids_safe_witness :
    find_path_bfs (build_track_graph []).1 ((0 : ℚ), (0 : ℚ)) ((0 : ℚ), (0 : ℚ)) 500 1 =
      some [] ∧
    ((∀ st ∈ ([] : List PathStep),
        (storeFind (build_track_graph []).2 st.1).isSome) ∧
      (path_to_coordinates [] (build_track_graph []).2).isSome) :=
  ⟨by rw [find_path_bfs, if_pos rfl],
    (build_graph_ids_safe []).2 ((0 : ℚ), (0 : ℚ)) ((0 : ℚ), (0 : ℚ)) 500 1 []
      (by rw [find_path_bfs, if_pos rfl])⟩
